import Mathlib

/-!
Verification of the content-placement formulation program (`videos.py`).

The program reads a problem instance (videos with sizes, caches with a shared
capacity, endpoints with a datacenter latency and a sparse cache-latency map,
and request records), aggregates request records by `(endpoint, video)` key,
builds a 0/1 integer program (variables `y[v,c]` and pruned `z[e,v,c]`,
capacity / linking / single-source constraints, a maximization objective),
and extracts a placement plan from the solved `y` values with a 0.5 threshold.

The shallow embedding below translates the Python functions `read_instance`,
`build_model`, `write_solution` and the post-solve branch of `main` into Lean.
Python dictionaries (insertion-ordered) are modelled as association lists with
in-place update; Python exceptions (`AssertionError` from the `assert`,
`IndexError` / `KeyError` from out-of-range subscripts) are modelled with
`Except`.
-/

namespace Videos

/-- Python runtime errors that the embedded code can raise. -/
inductive PyError where
  | assertionError
  | indexError
  | keyError
deriving DecidableEq, Repr

/-- One endpoint record: `dc_latency` and the insertion-ordered dict
`cache_latencies` mapping a cache id to its latency. -/
structure EndpointData where
  dc_latency : Int
  cache_latencies : List (Nat × Int)
deriving DecidableEq, Repr

instance : Inhabited EndpointData := ⟨⟨0, []⟩⟩

/-- The in-memory instance returned by `read_instance`: counts, capacity,
video sizes, endpoint records, and the aggregated request dict keyed by
`(endpoint, video)`. -/
structure InstanceData where
  V : Nat
  E : Nat
  R : Nat
  C : Nat
  X : Int
  video_sizes : List Int
  endpoints : List EndpointData
  requests : List ((Nat × Nat) × Int)
deriving DecidableEq, Repr

/-- `d[k]` lookup on an insertion-ordered dict modelled as an association
list (first match wins; keys are unique in every dict the code builds). -/
def dictGet {α β : Type} [DecidableEq α] : List (α × β) → α → Option β
  | [], _ => none
  | (k, v) :: rest, k' => if k = k' then some v else dictGet rest k'

/-- `d[k] = v` assignment on an insertion-ordered dict: overwrite in place
when the key exists, append otherwise (Python dict semantics). -/
def dictSet {α β : Type} [DecidableEq α] : List (α × β) → α → β → List (α × β)
  | [], k, v => [(k, v)]
  | (k', v') :: rest, k, v =>
      if k' = k then (k', v) :: rest else (k', v') :: dictSet rest k v

/-- `d.setdefault(k, []).append(c)`: append `c` to the list stored at `k`,
creating the entry at the end of the dict when `k` is absent. -/
def evAppend : List ((Nat × Nat) × List Nat) → (Nat × Nat) → Nat →
    List ((Nat × Nat) × List Nat)
  | [], k, c => [(k, [c])]
  | (k', cs) :: rest, k, c =>
      if k' = k then (k', cs ++ [c]) :: rest else (k', cs) :: evAppend rest k c

/-- One step of request aggregation:
`requests[key] = requests.get(key, 0) + n_req`. -/
def reqAdd (reqs : List ((Nat × Nat) × Int)) (key : Nat × Nat) (n : Int) :
    List ((Nat × Nat) × Int) :=
  dictSet reqs key ((dictGet reqs key).getD 0 + n)

/-- The request-aggregation loop of `read_instance`: each raw record
`(v_id, e_id, n_req)` is folded into the dict under key `(e_id, v_id)`. -/
def aggregateRequests (records : List (Nat × Nat × Int)) :
    List ((Nat × Nat) × Int) :=
  records.foldl (fun acc r => reqAdd acc (r.2.1, r.1) r.2.2) []

/-- `read_instance`, over already-tokenised input (byte-level parsing is out
of scope): header counts, the size line, the endpoint blocks and the raw
request records. The only check the code performs is the
`assert len(video_sizes) == V`; requests are aggregated additively. -/
def read_instance (V E R C : Nat) (X : Int) (sizes : List Int)
    (eps : List EndpointData) (records : List (Nat × Nat × Int)) :
    Except PyError InstanceData :=
  if sizes.length = V then
    Except.ok
      { V := V, E := E, R := R, C := C, X := X, video_sizes := sizes,
        endpoints := eps, requests := aggregateRequests records }
  else Except.error PyError.assertionError

/-- The `y` variable index set created by `model.addVars(V, C)`: every pair
`(v, c)` with `v ∈ [0,V)`, `c ∈ [0,C)`, in row-major creation order. -/
def yVarList (V C : Nat) : List (Nat × Nat) :=
  (List.range V).flatMap (fun v => (List.range C).map (fun c => (v, c)))

/-- Mutable state of the `z`-construction loop: the `z_keys` list, the
`z_gain` dict and the `ev_to_caches` dict. -/
structure ZState where
  zKeys : List (Nat × Nat × Nat)
  zGain : List ((Nat × Nat × Nat) × Int)
  evToCaches : List ((Nat × Nat) × List Nat)
deriving DecidableEq, Repr

/-- The inner loop over `ep["cache_latencies"].items()` for one aggregated
request `(e, v) ↦ n_req`: compute `save`, skip when `save ≤ 0`, otherwise
record the key, its gain `n_req * save`, and the cache in `ev_to_caches`. -/
def zInner (e v : Nat) (nReq dcLat : Int) :
    List (Nat × Int) → ZState → ZState
  | [], st => st
  | (c, lat) :: rest, st =>
      let save := dcLat - lat
      if save ≤ 0 then zInner e v nReq dcLat rest st
      else
        zInner e v nReq dcLat rest
          { zKeys := st.zKeys ++ [(e, v, c)]
            zGain := dictSet st.zGain (e, v, c) (nReq * save)
            evToCaches := evAppend st.evToCaches (e, v) c }

/-- The outer loop over `requests.items()`; `endpoints[e]` raises an
`IndexError` when `e` is out of range. -/
def zLoop (eps : List EndpointData) :
    List ((Nat × Nat) × Int) → ZState → Except PyError ZState
  | [], st => Except.ok st
  | ((e, v), n) :: rest, st =>
      match eps[e]? with
      | none => Except.error PyError.indexError
      | some ep => zLoop eps rest (zInner e v n ep.dc_latency ep.cache_latencies st)

/-- A linear constraint submitted to the solver, in the shape the code
builds it: one capacity row per cache, one linking row per created `z` key,
one single-source row per `ev_to_caches` entry. -/
inductive Constr where
  | capacity (c : Nat) (terms : List (Int × (Nat × Nat))) (bound : Int)
  | link (e v c : Nat)
  | singleSource (e v : Nat) (cs : List Nat)
deriving DecidableEq, Repr

/-- Objective direction. -/
inductive ObjSense where
  | maximize
  | minimize
deriving DecidableEq, Repr

/-- The capacity constraint for cache `c`:
`quicksum(video_sizes[v] * y[v, c] for v in videos) <= X`; `video_sizes[v]`
raises an `IndexError` when `v` is out of range. -/
def capConstr (sizes : List Int) (V : Nat) (X : Int) (c : Nat) :
    Except PyError Constr := do
  let terms ← (List.range V).mapM (fun v =>
    match sizes[v]? with
    | some s => Except.ok (s, (v, c))
    | none => Except.error PyError.indexError)
  Except.ok (Constr.capacity c terms X)

/-- The capacity-constraint loop `for c in caches`. -/
def capLoop (sizes : List Int) (V C : Nat) (X : Int) :
    Except PyError (List Constr) :=
  (List.range C).mapM (capConstr sizes V X)

/-- One linking constraint `z[e, v, c] <= y[v, c]`; looking up `y[v, c]` in
the `y` tupledict raises a `KeyError` when `(v, c)` is outside `[0,V)×[0,C)`. -/
def linkConstr (V C : Nat) (k : Nat × Nat × Nat) : Except PyError Constr :=
  if k.2.1 < V ∧ k.2.2 < C then Except.ok (Constr.link k.1 k.2.1 k.2.2)
  else Except.error PyError.keyError

/-- The linking-constraint loop `for (e, v, c) in z_keys`. -/
def linkLoop (V C : Nat) (zKeys : List (Nat × Nat × Nat)) :
    Except PyError (List Constr) :=
  zKeys.mapM (linkConstr V C)

/-- The objective terms `z_gain[k] * z[k] for k in z_keys`; `z_gain[k]`
raises a `KeyError` when the key is absent (it never is in practice). -/
def objLoop (zGain : List ((Nat × Nat × Nat) × Int)) :
    List (Nat × Nat × Nat) → Except PyError (List ((Nat × Nat × Nat) × Int))
  | [] => Except.ok []
  | k :: rest =>
      match dictGet zGain k with
      | none => Except.error PyError.keyError
      | some g => (objLoop zGain rest).map (fun l => (k, g) :: l)

/-- The model handed to the solver: variable index sets, the constraint
rows in creation order, and the linear objective with its direction. -/
structure GModel where
  yVars : List (Nat × Nat)
  zKeys : List (Nat × Nat × Nat)
  constrs : List Constr
  objective : List ((Nat × Nat × Nat) × Int)
  sense : ObjSense
deriving DecidableEq, Repr

/-- `build_model`: create the `y` variables, run the pruning loop that
creates the `z` variables and gains, add the capacity, linking and
single-source constraints, and set the maximization objective. -/
def build_model (d : InstanceData) : Except PyError GModel := do
  let y := yVarList d.V d.C
  let st ← zLoop d.endpoints d.requests ⟨[], [], []⟩
  let caps ← capLoop d.video_sizes d.V d.C d.X
  let links ← linkLoop d.V d.C st.zKeys
  let singles := st.evToCaches.map (fun p => Constr.singleSource p.1.1 p.1.2 p.2)
  let obj ← objLoop st.zGain st.zKeys
  Except.ok
    { yVars := y, zKeys := st.zKeys, constrs := caps ++ links ++ singles,
      objective := obj, sense := ObjSense.maximize }

/-- The boolean threshold `0.5` of `write_solution`, as an exact rational. -/
def half : Rat := Rat.divInt 1 2

/-- `write_solution`'s placement plan: for each cache `c` in ascending
order, the videos `v` with solver value `y[v, c].X > 0.5` in ascending
order; caches with an empty list are not inserted into the dict. -/
def write_solution (yVal : Nat → Nat → Rat) (V C : Nat) :
    List (Nat × List Nat) :=
  (List.range C).filterMap (fun c =>
    let vids := (List.range V).filter (fun v => half < yVal v c)
    if vids.isEmpty then none else some (c, vids))

/-- The text written to `videos.out`: the count of non-empty caches on the
first line, then one line per cache. -/
def solutionFile (yVal : Nat → Nat → Rat) (V C : Nat) :
    Nat × List (Nat × List Nat) :=
  (( write_solution yVal V C).length, write_solution yVal V C)

/-- The post-solve branch of `main`: when `model.SolCount == 0` the program
prints a message and returns without writing `videos.out`; otherwise it
writes the solution file. Neither branch raises. -/
def main_after_solve (solCount : Nat) (yVal : Nat → Nat → Rat)
    (d : InstanceData) :
    Except PyError (Option (Nat × List (Nat × List Nat))) :=
  if solCount = 0 then Except.ok none
  else Except.ok (some (solutionFile yVal d.V d.C))

/-- Well-formedness of an instance, as the input format guarantees it:
aggregated request keys are unique (they come from a dict), every request
references an endpoint in range and a video in range, every endpoint's
cache dict has unique keys all in range, and the size line has `V` entries. -/
def wfInstance (d : InstanceData) : Prop :=
  (d.requests.map Prod.fst).Nodup ∧
  (∀ p ∈ d.requests, p.1.1 < d.endpoints.length ∧ p.1.2 < d.V) ∧
  (∀ ep ∈ d.endpoints, (ep.cache_latencies.map Prod.fst).Nodup ∧
      ∀ q ∈ ep.cache_latencies, q.1 < d.C) ∧
  d.video_sizes.length = d.V

instance (d : InstanceData) : Decidable (wfInstance d) := by
  unfold wfInstance; infer_instance

instance {ε α : Type} [DecidableEq ε] [DecidableEq α] :
    DecidableEq (Except ε α)
  | Except.ok a, Except.ok b =>
      if h : a = b then isTrue (by rw [h])
      else isFalse (fun hh => by cases hh; exact h rfl)
  | Except.ok _, Except.error _ => isFalse (fun hh => by cases hh)
  | Except.error _, Except.ok _ => isFalse (fun hh => by cases hh)
  | Except.error a, Except.error b =>
      if h : a = b then isTrue (by rw [h])
      else isFalse (fun hh => by cases hh; exact h rfl)

/-- `endpoints[e]` as a total function (meaningful when `e` is in range). -/
def epAt (eps : List EndpointData) (e : Nat) : EndpointData :=
  (eps[e]?).getD default

/-- The `z` keys one aggregated request `(e, v)` contributes: the caches of
the endpoint's latency dict whose `save = dc − lat` is strictly positive,
in dict order. -/
def pairTriples (e v : Nat) (dc : Int) (cls : List (Nat × Int)) :
    List (Nat × Nat × Nat) :=
  cls.filterMap (fun q => if dc - q.2 ≤ 0 then none else some (e, v, q.1))

/-- The `z_gain` entries one aggregated request contributes:
`(e, v, c) ↦ n_req * save` for each surviving cache. -/
def pairGains (e v : Nat) (n dc : Int) (cls : List (Nat × Int)) :
    List ((Nat × Nat × Nat) × Int) :=
  cls.filterMap (fun q =>
    if dc - q.2 ≤ 0 then none else some ((e, v, q.1), n * (dc - q.2)))

/-- The surviving caches of one aggregated request, in dict order. -/
def pairCaches (dc : Int) (cls : List (Nat × Int)) : List Nat :=
  cls.filterMap (fun q => if dc - q.2 ≤ 0 then none else some q.1)

/-- All `z` keys, in creation order: requests in dict order, caches in dict
order within each request. -/
def allTriples (eps : List EndpointData) (reqs : List ((Nat × Nat) × Int)) :
    List (Nat × Nat × Nat) :=
  reqs.flatMap (fun p =>
    pairTriples p.1.1 p.1.2 (epAt eps p.1.1).dc_latency
      (epAt eps p.1.1).cache_latencies)

/-- All `z_gain` entries, in creation order. -/
def allGains (eps : List EndpointData) (reqs : List ((Nat × Nat) × Int)) :
    List ((Nat × Nat × Nat) × Int) :=
  reqs.flatMap (fun p =>
    pairGains p.1.1 p.1.2 p.2 (epAt eps p.1.1).dc_latency
      (epAt eps p.1.1).cache_latencies)

/-- The `ev_to_caches` dict: one entry per aggregated request that has at
least one surviving cache. -/
def allEv (eps : List EndpointData) (reqs : List ((Nat × Nat) × Int)) :
    List ((Nat × Nat) × List Nat) :=
  reqs.filterMap (fun p =>
    let cs := pairCaches (epAt eps p.1.1).dc_latency
      (epAt eps p.1.1).cache_latencies
    if cs.isEmpty then none else some (p.1, cs))

/-- The capacity row of cache `c`:
`Σ_{v ∈ [0,V)} video_sizes[v] · y[v,c] ≤ X`, over the full video range. -/
def capRow (sizes : List Int) (V : Nat) (X : Int) (c : Nat) : Constr :=
  Constr.capacity c ((List.range V).map (fun v => (sizes.getD v 0, (v, c)))) X

/-- Closed form of the model `build_model` produces on a well-formed
instance. -/
def theModel (d : InstanceData) : GModel :=
  { yVars := yVarList d.V d.C
    zKeys := allTriples d.endpoints d.requests
    constrs := (List.range d.C).map (capRow d.video_sizes d.V d.X)
      ++ (allTriples d.endpoints d.requests).map
          (fun k => Constr.link k.1 k.2.1 k.2.2)
      ++ (allEv d.endpoints d.requests).map
          (fun p => Constr.singleSource p.1.1 p.1.2 p.2)
    objective := allGains d.endpoints d.requests
    sense := ObjSense.maximize }

/-- Recogniser for capacity rows. -/
def Constr.isCapacity : Constr → Bool
  | Constr.capacity _ _ _ => true
  | _ => false

/-- Recogniser for the single-source row of the pair `(e, v)`. -/
def Constr.isSingleFor (e v : Nat) : Constr → Bool
  | Constr.singleSource e' v' _ => e' == e && v' == v
  | _ => false

/-- Satisfaction of one constraint row by a solver assignment (`yA` for the
`y` variables, `zA` for the `z` variables, integral 0/1 values). -/
def constrHolds (yA : Nat → Nat → Int) (zA : Nat → Nat → Nat → Int) :
    Constr → Prop
  | Constr.capacity _ terms bound =>
      (terms.map (fun t => t.1 * yA t.2.1 t.2.2)).sum ≤ bound
  | Constr.link e v c => zA e v c ≤ yA v c
  | Constr.singleSource e v cs => (cs.map (fun c => zA e v c)).sum ≤ 1

/-- Feasibility of an assignment for every constraint the builder created. -/
def feasible (yA : Nat → Nat → Int) (zA : Nat → Nat → Nat → Int)
    (m : GModel) : Prop :=
  ∀ ct ∈ m.constrs, constrHolds yA zA ct

/-- The end-to-end example instance: `V=1, E=1, R=1, C=1, X=10`, video size
5, endpoint latency 10, cache 0 latency 2, request `(video 0, endpoint 0,
count 3)`. -/
def sampleInstance : InstanceData :=
  { V := 1, E := 1, R := 1, C := 1, X := 10, video_sizes := [5],
    endpoints := [⟨10, [(0, 2)]⟩], requests := [((0, 0), 3)] }

/-- A degenerate instance with `V = 0` and one cache. -/
def degenerateInstance : InstanceData :=
  { V := 0, E := 0, R := 0, C := 1, X := 10, video_sizes := [],
    endpoints := [], requests := [] }

/-- The sample instance with a negative aggregated request count. -/
def negInstance : InstanceData :=
  { V := 1, E := 1, R := 1, C := 1, X := 10, video_sizes := [5],
    endpoints := [⟨10, [(0, 2)]⟩], requests := [((0, 0), -2)] }

/-- A sample solver assignment for the `y` values: `y[0,0] = 1`, all other
variables 0. -/
def sampleY : Nat → Nat → Rat :=
  fun v c => if v = 0 ∧ c = 0 then 1 else 0

/-- The caches of endpoint `e` that survive pruning (strictly positive
`save`), in dict order. These are the caches a single-source row sums over. -/
def survCaches (d : InstanceData) (e : Nat) : List Nat :=
  pairCaches (epAt d.endpoints e).dc_latency (epAt d.endpoints e).cache_latencies

/-! ### Association-list (dict) lemmas -/

theorem dictGet_mem {α β : Type} [DecidableEq α] {l : List (α × β)} {k : α}
    {v : β} (h : dictGet l k = some v) : (k, v) ∈ l := by
  induction l with
  | nil => simp [dictGet] at h
  | cons p rest ih =>
      obtain ⟨k', v'⟩ := p
      by_cases hk : k' = k
      · subst hk
        simp [dictGet] at h
        subst h
        exact List.mem_cons_self _ _
      · simp [dictGet, hk] at h
        exact List.mem_cons_of_mem _ (ih h)

theorem mem_dictGet {α β : Type} [DecidableEq α] {l : List (α × β)} {k : α}
    {v : β} (hnd : (l.map Prod.fst).Nodup) (h : (k, v) ∈ l) :
    dictGet l k = some v := by
  induction l with
  | nil => simp at h
  | cons p rest ih =>
      obtain ⟨k', v'⟩ := p
      simp only [List.map_cons, List.nodup_cons] at hnd
      rcases List.mem_cons.mp h with h1 | h1
      · cases h1
        simp [dictGet]
      · have hk : k' ≠ k := by
          intro he
          subst he
          exact hnd.1 (List.mem_map.mpr ⟨(k', v), h1, rfl⟩)
        simp [dictGet, hk]
        exact ih hnd.2 h1

theorem dictGet_eq_some_iff {α β : Type} [DecidableEq α] {l : List (α × β)}
    {k : α} {v : β} (hnd : (l.map Prod.fst).Nodup) :
    dictGet l k = some v ↔ (k, v) ∈ l :=
  ⟨dictGet_mem, mem_dictGet hnd⟩

theorem dictGet_dictSet_self {α β : Type} [DecidableEq α]
    (l : List (α × β)) (k : α) (v : β) :
    dictGet (dictSet l k v) k = some v := by
  induction l with
  | nil => simp [dictGet, dictSet]
  | cons p rest ih =>
      obtain ⟨k', v'⟩ := p
      by_cases hk : k' = k
      · simp [dictSet, dictGet, hk]
      · simp [dictSet, dictGet, hk, ih]

theorem dictSet_dictSet_self {α β : Type} [DecidableEq α]
    (l : List (α × β)) (k : α) (a b : β) :
    dictSet (dictSet l k a) k b = dictSet l k b := by
  induction l with
  | nil => simp [dictSet]
  | cons p rest ih =>
      obtain ⟨k', v'⟩ := p
      by_cases hk : k' = k
      · simp [dictSet, hk]
      · simp [dictSet, hk, ih]

theorem dictSet_of_not_mem {α β : Type} [DecidableEq α]
    {l : List (α × β)} {k : α} (v : β) (h : k ∉ l.map Prod.fst) :
    dictSet l k v = l ++ [(k, v)] := by
  induction l with
  | nil => simp [dictSet]
  | cons p rest ih =>
      obtain ⟨k', v'⟩ := p
      simp only [List.map_cons, List.mem_cons] at h
      push_neg at h
      simp [dictSet, Ne.symm h.1, ih h.2]

theorem evAppend_of_not_mem {l : List ((Nat × Nat) × List Nat)}
    {k : Nat × Nat} (c : Nat) (h : k ∉ l.map Prod.fst) :
    evAppend l k c = l ++ [(k, [c])] := by
  induction l with
  | nil => simp [evAppend]
  | cons p rest ih =>
      obtain ⟨k', cs⟩ := p
      simp only [List.map_cons, List.mem_cons] at h
      push_neg at h
      simp [evAppend, Ne.symm h.1, ih h.2]

theorem evAppend_last {base : List ((Nat × Nat) × List Nat)}
    {k : Nat × Nat} (cs : List Nat) (c : Nat) (h : k ∉ base.map Prod.fst) :
    evAppend (base ++ [(k, cs)]) k c = base ++ [(k, cs ++ [c])] := by
  induction base with
  | nil => simp [evAppend]
  | cons p rest ih =>
      obtain ⟨k', cs'⟩ := p
      simp only [List.map_cons, List.mem_cons] at h
      push_neg at h
      simp [evAppend, Ne.symm h.1]
      exact ih h.2

theorem reqAdd_reqAdd (l : List ((Nat × Nat) × Int)) (k : Nat × Nat)
    (n1 n2 : Int) : reqAdd (reqAdd l k n1) k n2 = reqAdd l k (n1 + n2) := by
  unfold reqAdd
  rw [dictGet_dictSet_self, dictSet_dictSet_self, Option.getD_some, add_assoc]

/-! ### Structure of the per-request pruning data -/

theorem pairGains_map_fst (e v : Nat) (n dc : Int) (cls : List (Nat × Int)) :
    (pairGains e v n dc cls).map Prod.fst = pairTriples e v dc cls := by
  induction cls with
  | nil => rfl
  | cons q rest ih =>
      by_cases hs : dc - q.2 ≤ 0
      · simp only [pairGains, pairTriples, List.filterMap_cons, if_pos hs] at ih ⊢
        exact ih
      · simp only [pairGains, pairTriples, List.filterMap_cons, if_neg hs,
          List.map_cons] at ih ⊢
        exact congrArg _ ih

theorem pairTriples_eq_map (e v : Nat) (dc : Int) (cls : List (Nat × Int)) :
    pairTriples e v dc cls = (pairCaches dc cls).map (fun c => (e, v, c)) := by
  induction cls with
  | nil => rfl
  | cons q rest ih =>
      by_cases hs : dc - q.2 ≤ 0
      · simp only [pairTriples, pairCaches, List.filterMap_cons, if_pos hs] at ih ⊢
        exact ih
      · simp only [pairTriples, pairCaches, List.filterMap_cons, if_neg hs,
          List.map_cons] at ih ⊢
        exact congrArg _ ih

theorem pairCaches_sublist (dc : Int) (cls : List (Nat × Int)) :
    (pairCaches dc cls).Sublist (cls.map Prod.fst) := by
  induction cls with
  | nil => simp [pairCaches]
  | cons q rest ih =>
      by_cases hs : dc - q.2 ≤ 0
      · simp only [pairCaches, List.filterMap_cons, hs, if_pos, List.map_cons]
        exact ih.cons q.1
      · simp only [pairCaches, List.filterMap_cons, hs, if_neg,
          not_false_iff, List.map_cons]
        exact ih.cons₂ q.1

theorem pairCaches_nodup {dc : Int} {cls : List (Nat × Int)}
    (h : (cls.map Prod.fst).Nodup) : (pairCaches dc cls).Nodup :=
  (pairCaches_sublist dc cls).nodup h

theorem pairTriples_nodup {e v : Nat} {dc : Int} {cls : List (Nat × Int)}
    (h : (cls.map Prod.fst).Nodup) : (pairTriples e v dc cls).Nodup := by
  rw [pairTriples_eq_map]
  exact (pairCaches_nodup h).map (fun a b hab => by
    simpa using hab)

theorem mem_pairTriples {a : Nat × Nat × Nat} {e v : Nat} {dc : Int}
    {cls : List (Nat × Int)} :
    a ∈ pairTriples e v dc cls ↔
      ∃ q ∈ cls, ¬ dc - q.2 ≤ 0 ∧ a = (e, v, q.1) := by
  unfold pairTriples
  rw [List.mem_filterMap]
  constructor
  · rintro ⟨q, hq, hval⟩
    by_cases hs : dc - q.2 ≤ 0
    · simp [hs] at hval
    · simp [hs] at hval
      exact ⟨q, hq, hs, hval.symm⟩
  · rintro ⟨q, hq, hs, rfl⟩
    exact ⟨q, hq, by simp [hs]⟩

theorem mem_pairGains {a : (Nat × Nat × Nat) × Int} {e v : Nat} {n dc : Int}
    {cls : List (Nat × Int)} :
    a ∈ pairGains e v n dc cls ↔
      ∃ q ∈ cls, ¬ dc - q.2 ≤ 0 ∧ a = ((e, v, q.1), n * (dc - q.2)) := by
  unfold pairGains
  rw [List.mem_filterMap]
  constructor
  · rintro ⟨q, hq, hval⟩
    by_cases hs : dc - q.2 ≤ 0
    · simp [hs] at hval
    · simp [hs] at hval
      exact ⟨q, hq, hs, hval.symm⟩
  · rintro ⟨q, hq, hs, rfl⟩
    exact ⟨q, hq, by simp [hs]⟩

theorem mem_pairCaches {c : Nat} {dc : Int} {cls : List (Nat × Int)} :
    c ∈ pairCaches dc cls ↔ ∃ q ∈ cls, ¬ dc - q.2 ≤ 0 ∧ c = q.1 := by
  unfold pairCaches
  rw [List.mem_filterMap]
  constructor
  · rintro ⟨q, hq, hval⟩
    by_cases hs : dc - q.2 ≤ 0
    · simp [hs] at hval
    · simp [hs] at hval
      exact ⟨q, hq, hs, hval.symm⟩
  · rintro ⟨q, hq, hs, rfl⟩
    exact ⟨q, hq, by simp [hs]⟩

/-! ### The three components of `zInner` -/

theorem zInner_zKeys (e v : Nat) (n dc : Int) (cls : List (Nat × Int))
    (st : ZState) :
    (zInner e v n dc cls st).zKeys = st.zKeys ++ pairTriples e v dc cls := by
  induction cls generalizing st with
  | nil => simp [zInner, pairTriples]
  | cons q rest ih =>
      obtain ⟨c, lat⟩ := q
      by_cases hs : dc - lat ≤ 0
      · simp only [zInner, if_pos hs, ih, pairTriples, List.filterMap_cons]
      · simp only [zInner, if_neg hs, ih, pairTriples, List.filterMap_cons]
        simp

theorem zInner_zGain_fold (e v : Nat) (n dc : Int) (cls : List (Nat × Int))
    (st : ZState) :
    (zInner e v n dc cls st).zGain =
      (pairGains e v n dc cls).foldl (fun a p => dictSet a p.1 p.2) st.zGain := by
  induction cls generalizing st with
  | nil => simp [zInner, pairGains]
  | cons q rest ih =>
      obtain ⟨c, lat⟩ := q
      by_cases hs : dc - lat ≤ 0
      · simp only [zInner, if_pos hs, ih, pairGains, List.filterMap_cons]
      · simp only [zInner, if_neg hs, ih, pairGains, List.filterMap_cons,
          List.foldl_cons]

theorem zInner_ev_fold (e v : Nat) (n dc : Int) (cls : List (Nat × Int))
    (st : ZState) :
    (zInner e v n dc cls st).evToCaches =
      (pairCaches dc cls).foldl (fun a c => evAppend a (e, v) c)
        st.evToCaches := by
  induction cls generalizing st with
  | nil => simp [zInner, pairCaches]
  | cons q rest ih =>
      obtain ⟨c, lat⟩ := q
      by_cases hs : dc - lat ≤ 0
      · simp only [zInner, if_pos hs, ih, pairCaches, List.filterMap_cons]
      · simp only [zInner, if_neg hs, ih, pairCaches, List.filterMap_cons,
          List.foldl_cons]

theorem dictSetFold_fresh {α β : Type} [DecidableEq α]
    {acc : List (α × β)} {ps : List (α × β)}
    (h : ∀ p ∈ ps, p.1 ∉ acc.map Prod.fst) (hnd : (ps.map Prod.fst).Nodup) :
    ps.foldl (fun a p => dictSet a p.1 p.2) acc = acc ++ ps := by
  induction ps generalizing acc with
  | nil => simp
  | cons p rest ih =>
      obtain ⟨k, v⟩ := p
      simp only [List.map_cons, List.nodup_cons] at hnd
      have hfresh : k ∉ acc.map Prod.fst := h (k, v) (List.mem_cons_self _ _)
      simp only [List.foldl_cons]
      rw [dictSet_of_not_mem v hfresh]
      rw [ih (fun p hp => by
        simp only [List.map_append, List.mem_append, List.map_cons]
        push_neg
        refine ⟨h p (List.mem_cons_of_mem _ hp), ?_⟩
        simp only [List.map_nil, List.mem_singleton]
        intro he
        exact hnd.1 (he ▸ List.mem_map.mpr ⟨p, hp, rfl⟩)) hnd.2]
      simp

theorem evFold_aux {base : List ((Nat × Nat) × List Nat)} {k : Nat × Nat}
    (cs0 cs : List Nat) (h : k ∉ base.map Prod.fst) :
    cs.foldl (fun a c => evAppend a k c) (base ++ [(k, cs0)]) =
      base ++ [(k, cs0 ++ cs)] := by
  induction cs generalizing cs0 with
  | nil => simp
  | cons c rest ih =>
      simp only [List.foldl_cons]
      rw [evAppend_last cs0 c h, ih (cs0 ++ [c])]
      simp

theorem evFold_fresh {st : List ((Nat × Nat) × List Nat)} {k : Nat × Nat}
    (cs : List Nat) (h : k ∉ st.map Prod.fst) :
    cs.foldl (fun a c => evAppend a k c) st =
      st ++ (if cs.isEmpty then [] else [(k, cs)]) := by
  cases cs with
  | nil => simp
  | cons c rest =>
      simp only [List.foldl_cons, List.isEmpty_cons]
      rw [evAppend_of_not_mem c h, evFold_aux [c] rest h]
      simp

/-! ### Characterisation of the pruning loop -/

theorem epAt_eq {eps : List EndpointData} {e : Nat} (h : e < eps.length) :
    epAt eps e = eps[e] := by
  simp [epAt, List.getElem?_eq_getElem h]

theorem pairGains_keys_nodup {e v : Nat} {n dc : Int}
    {cls : List (Nat × Int)} (h : (cls.map Prod.fst).Nodup) :
    ((pairGains e v n dc cls).map Prod.fst).Nodup := by
  rw [pairGains_map_fst]
  exact pairTriples_nodup h

theorem zLoop_char (eps : List EndpointData)
    (hcnd : ∀ ep ∈ eps, (ep.cache_latencies.map Prod.fst).Nodup)
    (reqs : List ((Nat × Nat) × Int)) :
    ∀ st : ZState,
      (reqs.map Prod.fst).Nodup →
      (∀ p ∈ reqs, p.1.1 < eps.length) →
      (∀ p ∈ reqs, ∀ c : Nat,
        ((p.1.1, p.1.2, c) : Nat × Nat × Nat) ∉ st.zGain.map Prod.fst) →
      (∀ p ∈ reqs, p.1 ∉ st.evToCaches.map Prod.fst) →
      zLoop eps reqs st = Except.ok
        ⟨st.zKeys ++ allTriples eps reqs,
         st.zGain ++ allGains eps reqs,
         st.evToCaches ++ allEv eps reqs⟩ := by
  induction reqs with
  | nil =>
      intro st _ _ _ _
      simp [zLoop, allTriples, allGains, allEv]
  | cons p rest ih =>
      obtain ⟨⟨e, v⟩, n⟩ := p
      intro st hnd hrange hfg hfe
      have he : e < eps.length := hrange ((e, v), n) (List.mem_cons_self _ _)
      have hep : eps[e]? = some (eps[e]) := List.getElem?_eq_getElem he
      have hepAt : epAt eps e = eps[e] := epAt_eq he
      have hclsnd := hcnd (eps[e]) (List.getElem_mem he)
      simp only [List.map_cons, List.nodup_cons] at hnd
      have hG : (zInner e v n (eps[e]).dc_latency (eps[e]).cache_latencies
          st).zGain = st.zGain ++
            pairGains e v n (eps[e]).dc_latency (eps[e]).cache_latencies := by
        rw [zInner_zGain_fold]
        apply dictSetFold_fresh
        · intro q hq
          obtain ⟨q', _, _, hqe⟩ := mem_pairGains.mp hq
          rw [hqe]
          exact hfg ((e, v), n) (List.mem_cons_self _ _) q'.1
        · exact pairGains_keys_nodup hclsnd
      have hE : (zInner e v n (eps[e]).dc_latency (eps[e]).cache_latencies
          st).evToCaches = st.evToCaches ++
            (if (pairCaches (eps[e]).dc_latency
                (eps[e]).cache_latencies).isEmpty then []
             else [((e, v),
               pairCaches (eps[e]).dc_latency (eps[e]).cache_latencies)]) := by
        rw [zInner_ev_fold]
        exact evFold_fresh _ (hfe ((e, v), n) (List.mem_cons_self _ _))
      have hK := zInner_zKeys e v n (eps[e]).dc_latency
        (eps[e]).cache_latencies st
      have hfg2 : ∀ p ∈ rest, ∀ c : Nat,
          ((p.1.1, p.1.2, c) : Nat × Nat × Nat) ∉
            (zInner e v n (eps[e]).dc_latency (eps[e]).cache_latencies
              st).zGain.map Prod.fst := by
        intro p hp c
        rw [hG]
        simp only [List.map_append, List.mem_append]
        push_neg
        refine ⟨hfg p (List.mem_cons_of_mem _ hp) c, ?_⟩
        intro hm
        rw [pairGains_map_fst] at hm
        obtain ⟨q, _, _, heq⟩ := mem_pairTriples.mp hm
        have h1 : p.1.1 = e := congrArg Prod.fst heq
        have h2 : p.1.2 = v := congrArg (fun x => x.2.1) heq
        have hpkey : p.1 = (e, v) := by
          rw [Prod.ext_iff]
          exact ⟨h1, h2⟩
        exact hnd.1 (hpkey ▸ List.mem_map.mpr ⟨p, hp, rfl⟩)
      have hfe2 : ∀ p ∈ rest, p.1 ∉
          (zInner e v n (eps[e]).dc_latency (eps[e]).cache_latencies
            st).evToCaches.map Prod.fst := by
        intro p hp
        rw [hE]
        simp only [List.map_append, List.mem_append]
        push_neg
        refine ⟨hfe p (List.mem_cons_of_mem _ hp), ?_⟩
        intro hm
        by_cases hcs : (pairCaches (eps[e]).dc_latency
            (eps[e]).cache_latencies).isEmpty
        · simp [hcs] at hm
        · simp [hcs] at hm
          exact hnd.1 (hm ▸ List.mem_map.mpr ⟨p, hp, rfl⟩)
      have hrest := ih (zInner e v n (eps[e]).dc_latency
          (eps[e]).cache_latencies st) hnd.2
        (fun p hp => hrange p (List.mem_cons_of_mem _ hp)) hfg2 hfe2
      simp only [zLoop, hep]
      rw [hrest, hK, hG, hE]
      simp only [allTriples, allGains, allEv, List.flatMap_cons,
        List.filterMap_cons, hepAt, List.append_assoc]
      by_cases hcs : (pairCaches (eps[e]).dc_latency
          (eps[e]).cache_latencies).isEmpty
      · simp [hcs]
      · simp [hcs]

/-! ### The constraint loops and the objective -/

theorem mapM_ok {α β : Type} {f : α → Except PyError β} {g : α → β} :
    ∀ {l : List α}, (∀ x ∈ l, f x = Except.ok (g x)) →
      l.mapM f = Except.ok (l.map g) := by
  intro l
  induction l with
  | nil => intro _; rfl
  | cons x rest ih =>
      intro h
      rw [List.mapM_cons, h x (List.mem_cons_self _ _),
        ih (fun y hy => h y (List.mem_cons_of_mem _ hy))]
      rfl

theorem capConstr_ok {sizes : List Int} {V : Nat} {X : Int} (c : Nat)
    (h : sizes.length = V) :
    capConstr sizes V X c = Except.ok (capRow sizes V X c) := by
  unfold capConstr capRow
  rw [mapM_ok (g := fun v => (sizes.getD v 0, (v, c)))]
  · rfl
  · intro v hv
    have hvlt : v < sizes.length := h ▸ List.mem_range.mp hv
    rw [List.getElem?_eq_getElem hvlt, List.getD_eq_getElem sizes 0 hvlt]

theorem capLoop_ok {sizes : List Int} {V C : Nat} {X : Int}
    (h : sizes.length = V) :
    capLoop sizes V C X = Except.ok ((List.range C).map (capRow sizes V X)) :=
  mapM_ok (fun c _ => capConstr_ok c h)

theorem linkLoop_ok {V C : Nat} {zKeys : List (Nat × Nat × Nat)}
    (h : ∀ k ∈ zKeys, k.2.1 < V ∧ k.2.2 < C) :
    linkLoop V C zKeys =
      Except.ok (zKeys.map (fun k => Constr.link k.1 k.2.1 k.2.2)) :=
  mapM_ok (fun k hk => by unfold linkConstr; rw [if_pos (h k hk)])

theorem objLoop_cons_of_ne {zGain : List ((Nat × Nat × Nat) × Int)}
    {k : Nat × Nat × Nat} {g : Int} :
    ∀ {keys : List (Nat × Nat × Nat)}, (∀ kk ∈ keys, kk ≠ k) →
      objLoop ((k, g) :: zGain) keys = objLoop zGain keys := by
  intro keys
  induction keys with
  | nil => intro _; rfl
  | cons kk rest ih =>
      intro h
      have hne : ¬ k = kk := Ne.symm (h kk (List.mem_cons_self _ _))
      simp only [objLoop, dictGet, if_neg hne,
        ih (fun y hy => h y (List.mem_cons_of_mem _ hy))]

theorem objLoop_self {zGain : List ((Nat × Nat × Nat) × Int)}
    (hnd : (zGain.map Prod.fst).Nodup) :
    objLoop zGain (zGain.map Prod.fst) = Except.ok zGain := by
  induction zGain with
  | nil => rfl
  | cons p rest ih =>
      obtain ⟨k, g⟩ := p
      simp only [List.map_cons, List.nodup_cons] at hnd
      simp only [List.map_cons, objLoop, dictGet, if_pos rfl]
      rw [objLoop_cons_of_ne (fun kk hkk he => hnd.1 (by
        rw [← he]; exact hkk))]
      rw [ih hnd.2]
      rfl

/-! ### Global structure of the pruned variables -/

theorem epAt_cls_nodup {eps : List EndpointData}
    (hcnd : ∀ ep ∈ eps, (ep.cache_latencies.map Prod.fst).Nodup) (e : Nat) :
    ((epAt eps e).cache_latencies.map Prod.fst).Nodup := by
  unfold epAt
  cases h : eps[e]? with
  | none => simp [default]
  | some ep => exact hcnd ep (List.getElem?_mem h)

theorem mem_allTriples {eps : List EndpointData}
    {reqs : List ((Nat × Nat) × Int)} {a : Nat × Nat × Nat} :
    a ∈ allTriples eps reqs ↔ ∃ p ∈ reqs,
      a ∈ pairTriples p.1.1 p.1.2 (epAt eps p.1.1).dc_latency
        (epAt eps p.1.1).cache_latencies := by
  simp [allTriples, List.mem_flatMap]

theorem allTriples_nodup {eps : List EndpointData}
    {reqs : List ((Nat × Nat) × Int)} (hnd : (reqs.map Prod.fst).Nodup)
    (hcnd : ∀ ep ∈ eps, (ep.cache_latencies.map Prod.fst).Nodup) :
    (allTriples eps reqs).Nodup := by
  rw [allTriples, List.nodup_flatMap]
  constructor
  · intro p _
    exact pairTriples_nodup (epAt_cls_nodup hcnd p.1.1)
  · have hpw : List.Pairwise (fun p q => p.1 ≠ q.1) reqs := by
      rw [← List.pairwise_map (f := Prod.fst)]
      exact hnd
    refine hpw.imp ?_
    intro p q hpq a hap haq
    obtain ⟨qa, _, _, ha1⟩ := mem_pairTriples.mp hap
    obtain ⟨qb, _, _, ha2⟩ := mem_pairTriples.mp haq
    apply hpq
    rw [Prod.ext_iff]
    have h1 : p.1.1 = q.1.1 := by
      have := congrArg Prod.fst ha1
      have := congrArg Prod.fst ha2
      omega
    have h2 : p.1.2 = q.1.2 := by
      have := congrArg (fun x => x.2.1) ha1
      have := congrArg (fun x => x.2.1) ha2
      simp at *
      omega
    exact ⟨h1, h2⟩

theorem allGains_map_fst (eps : List EndpointData)
    (reqs : List ((Nat × Nat) × Int)) :
    (allGains eps reqs).map Prod.fst = allTriples eps reqs := by
  simp only [allGains, allTriples, List.map_flatMap, pairGains_map_fst]

/-- On a well-formed instance, `build_model` succeeds and produces exactly
the closed-form model `theModel`. -/
theorem build_model_eq (d : InstanceData) (h : wfInstance d) :
    build_model d = Except.ok (theModel d) := by
  obtain ⟨hnd, hrange, hcnd, hlen⟩ := h
  have hz := zLoop_char d.endpoints (fun ep hep => (hcnd ep hep).1)
    d.requests ⟨[], [], []⟩ hnd (fun p hp => (hrange p hp).1)
    (by intro p _ c; simp) (by intro p _; simp)
  simp only [List.nil_append] at hz
  have hlink : ∀ k ∈ allTriples d.endpoints d.requests,
      k.2.1 < d.V ∧ k.2.2 < d.C := by
    intro k hk
    obtain ⟨p, hp, hkp⟩ := mem_allTriples.mp hk
    obtain ⟨q, hq, _, hke⟩ := mem_pairTriples.mp hkp
    subst hke
    constructor
    · exact (hrange p hp).2
    · have he : p.1.1 < d.endpoints.length := (hrange p hp).1
      have : epAt d.endpoints p.1.1 ∈ d.endpoints := by
        rw [epAt_eq he]
        exact List.getElem_mem he
      exact (hcnd _ this).2 q hq
  have hobj : objLoop (allGains d.endpoints d.requests)
      (allTriples d.endpoints d.requests) =
        Except.ok (allGains d.endpoints d.requests) := by
    rw [← allGains_map_fst]
    apply objLoop_self
    rw [allGains_map_fst]
    exact allTriples_nodup hnd (fun ep hep => (hcnd ep hep).1)
  unfold build_model
  rw [hz]
  show (capLoop d.video_sizes d.V d.C d.X).bind _ = _
  rw [capLoop_ok hlen]
  show (linkLoop d.V d.C (allTriples d.endpoints d.requests)).bind _ = _
  rw [linkLoop_ok hlink]
  show (objLoop _ _).bind _ = _
  rw [hobj]
  rfl

/-! ### Membership characterisations used by the claims -/

theorem dict_mem_eq {α β : Type} [DecidableEq α] {l : List (α × β)}
    (hnd : (l.map Prod.fst).Nodup) {p : α × β} (hp : p ∈ l) {k : α} {v : β}
    (hk : p.1 = k) (hg : dictGet l k = some v) : p = (k, v) := by
  have hh := mem_dictGet hnd hp
  rw [hk, hg] at hh
  have : v = p.2 := Option.some.inj hh
  rw [Prod.ext_iff]
  exact ⟨hk, this.symm⟩

theorem mem_allEv {eps : List EndpointData} {reqs : List ((Nat × Nat) × Int)}
    {a : (Nat × Nat) × List Nat} :
    a ∈ allEv eps reqs ↔ ∃ p ∈ reqs, a.1 = p.1 ∧
      a.2 = pairCaches (epAt eps p.1.1).dc_latency
        (epAt eps p.1.1).cache_latencies ∧ a.2 ≠ [] := by
  simp only [allEv, List.mem_filterMap]
  constructor
  · rintro ⟨p, hp, hsome⟩
    by_cases hcs : (pairCaches (epAt eps p.1.1).dc_latency
        (epAt eps p.1.1).cache_latencies).isEmpty
    · simp [hcs] at hsome
    · simp only [hcs] at hsome
      simp at hsome
      refine ⟨p, hp, ?_, ?_, ?_⟩
      · rw [← hsome]
      · rw [← hsome]
      · rw [← hsome]
        simpa [List.isEmpty_iff] using hcs
  · rintro ⟨p, hp, h1, h2, h3⟩
    refine ⟨p, hp, ?_⟩
    have hcs : (pairCaches (epAt eps p.1.1).dc_latency
        (epAt eps p.1.1).cache_latencies).isEmpty = false := by
      rw [← h2]
      simpa [List.isEmpty_iff] using h3
    have ha : a = (p.1, pairCaches (epAt eps p.1.1).dc_latency
        (epAt eps p.1.1).cache_latencies) := by
      rw [Prod.ext_iff]
      exact ⟨h1, h2⟩
    rw [ha]
    simp [hcs]

theorem linkOf_injective :
    Function.Injective (fun k : Nat × Nat × Nat =>
      Constr.link k.1 k.2.1 k.2.2) := by
  intro a b hab
  simp only [Constr.link.injEq] at hab
  rw [Prod.ext_iff, Prod.ext_iff]
  exact ⟨hab.1, hab.2.1, hab.2.2⟩

theorem link_mem_theModel {d : InstanceData} {e v c : Nat} :
    Constr.link e v c ∈ (theModel d).constrs ↔
      (e, v, c) ∈ allTriples d.endpoints d.requests := by
  simp only [theModel, List.mem_append, List.mem_map]
  constructor
  · rintro ((⟨c', _, habs⟩ | ⟨k, hk, habs⟩) | ⟨p, _, habs⟩)
    · simp [capRow] at habs
    · obtain ⟨h1, h2, h3⟩ := Constr.link.inj habs
      have : k = (e, v, c) := by
        rw [Prod.ext_iff, Prod.ext_iff]
        exact ⟨h1, h2, h3⟩
      rw [← this]
      exact hk
    · simp at habs
  · intro hk
    exact Or.inl (Or.inr ⟨(e, v, c), hk, rfl⟩)

theorem singleSource_mem_theModel {d : InstanceData} {e v : Nat}
    {cs : List Nat} :
    Constr.singleSource e v cs ∈ (theModel d).constrs ↔
      ((e, v), cs) ∈ allEv d.endpoints d.requests := by
  simp only [theModel, List.mem_append, List.mem_map]
  constructor
  · rintro ((⟨c', _, habs⟩ | ⟨k, _, habs⟩) | ⟨p, hp, habs⟩)
    · simp [capRow] at habs
    · simp at habs
    · obtain ⟨h1, h2, h3⟩ := Constr.singleSource.inj habs
      have : p = ((e, v), cs) := by
        rw [Prod.ext_iff, Prod.ext_iff]
        exact ⟨⟨h1, h2⟩, h3⟩
      rw [← this]
      exact hp
  · intro hk
    exact Or.inr ⟨((e, v), cs), hk, rfl⟩

/-- Forward decomposition: a `z` key `(e, v, c)` pins down its request pair
and its cache latency, so its `save` is positive. -/
theorem triple_mem_iff {d : InstanceData} (hwf : wfInstance d)
    {e v c : Nat} {n lat : Int}
    (hn : dictGet d.requests (e, v) = some n)
    (hc : dictGet (epAt d.endpoints e).cache_latencies c = some lat) :
    ((e, v, c) ∈ allTriples d.endpoints d.requests ↔
      0 < (epAt d.endpoints e).dc_latency - lat) := by
  obtain ⟨hnd, _, hcnd, _⟩ := hwf
  constructor
  · intro hk
    obtain ⟨p, hp, hkp⟩ := mem_allTriples.mp hk
    obtain ⟨q, hq, hs, hke⟩ := mem_pairTriples.mp hkp
    have hpe : p.1.1 = e := (congrArg Prod.fst hke).symm
    have hpv : p.1.2 = v := (congrArg (fun x => x.2.1) hke).symm
    have hqc : q.1 = c := (congrArg (fun x => x.2.2) hke).symm
    rw [hpe] at hq hs
    have hq2 : q = (c, lat) :=
      dict_mem_eq (epAt_cls_nodup (fun ep hep => (hcnd ep hep).1) e) hq hqc hc
    rw [hq2] at hs
    omega
  · intro hs
    apply mem_allTriples.mpr
    refine ⟨((e, v), n), dictGet_mem hn, ?_⟩
    apply mem_pairTriples.mpr
    refine ⟨(c, lat), dictGet_mem hc, ?_, rfl⟩
    show ¬ (epAt d.endpoints e).dc_latency - lat ≤ 0
    omega

/-- The objective coefficient of a surviving triple is exactly
`n_req * save`, and pruned triples have no objective entry. -/
theorem gain_mem_iff {d : InstanceData} (hwf : wfInstance d)
    {e v c : Nat} {n lat : Int}
    (hn : dictGet d.requests (e, v) = some n)
    (hc : dictGet (epAt d.endpoints e).cache_latencies c = some lat)
    (g : Int) :
    (((e, v, c), g) ∈ allGains d.endpoints d.requests ↔
      (0 < (epAt d.endpoints e).dc_latency - lat ∧
        g = n * ((epAt d.endpoints e).dc_latency - lat))) := by
  obtain ⟨hnd, _, hcnd, _⟩ := hwf
  constructor
  · intro hk
    simp only [allGains, List.mem_flatMap] at hk
    obtain ⟨p, hp, hkp⟩ := hk
    obtain ⟨q, hq, hs, hke⟩ := mem_pairGains.mp hkp
    have hpe : p.1.1 = e := (congrArg (fun x => x.1.1) hke).symm
    have hpv : p.1.2 = v := (congrArg (fun x => x.1.2.1) hke).symm
    have hqc : q.1 = c := (congrArg (fun x => x.1.2.2) hke).symm
    have hpkey : p.1 = (e, v) := by
      rw [Prod.ext_iff]
      exact ⟨hpe, hpv⟩
    have hp2 : p = ((e, v), n) := dict_mem_eq hnd hp hpkey hn
    rw [hpe] at hq hs
    have hq2 : q = (c, lat) :=
      dict_mem_eq (epAt_cls_nodup (fun ep hep => (hcnd ep hep).1) e) hq hqc hc
    have hg : g = p.2 * ((epAt d.endpoints p.1.1).dc_latency - q.2) :=
      congrArg Prod.snd hke
    rw [hpe, hp2] at hg
    rw [hq2] at hs hg
    exact ⟨by omega, hg⟩
  · rintro ⟨hs, rfl⟩
    simp only [allGains, List.mem_flatMap]
    refine ⟨((e, v), n), dictGet_mem hn, ?_⟩
    apply mem_pairGains.mpr
    refine ⟨(c, lat), dictGet_mem hc, ?_, rfl⟩
    show ¬ (epAt d.endpoints e).dc_latency - lat ≤ 0
    omega

theorem mem_yVarList {V C v c : Nat} :
    (v, c) ∈ yVarList V C ↔ v < V ∧ c < C := by
  simp only [yVarList, List.mem_flatMap, List.mem_map, List.mem_range]
  constructor
  · rintro ⟨a, ha, b, hb, hab⟩
    obtain ⟨h1, h2⟩ := Prod.mk.inj hab
    rw [← h1, ← h2]
    exact ⟨ha, hb⟩
  · rintro ⟨hv, hc⟩
    exact ⟨v, hv, c, hc, rfl⟩

theorem yVarList_length (V C : Nat) : (yVarList V C).length = V * C := by
  induction V with
  | zero => simp [yVarList]
  | succ n ih =>
      simp only [yVarList, List.range_succ, List.flatMap_append,
        List.length_append] at ih ⊢
      simp only [List.flatMap_cons, List.flatMap_nil, List.append_nil,
        List.length_map, List.length_range]
      rw [ih]
      ring

/-! ### Single-source rows, aggregation, and the solution extractor -/

theorem isSingleFor_iff {e v : Nat} {p : (Nat × Nat) × List Nat} :
    Constr.isSingleFor e v (Constr.singleSource p.1.1 p.1.2 p.2) = true ↔
      p.1 = (e, v) := by
  simp [Constr.isSingleFor, Prod.ext_iff]

theorem singles_filter_nil {e v : Nat} {l : List ((Nat × Nat) × List Nat)}
    (h : ∀ p ∈ l, p.1 ≠ (e, v)) :
    (l.map (fun p => Constr.singleSource p.1.1 p.1.2 p.2)).filter
      (Constr.isSingleFor e v) = [] := by
  rw [List.filter_eq_nil_iff]
  rintro a ha
  obtain ⟨p, hp, rfl⟩ := List.mem_map.mp ha
  intro habs
  exact h p hp (isSingleFor_iff.mp habs)

theorem singles_filter_single {e v : Nat} {cs : List Nat}
    {l : List ((Nat × Nat) × List Nat)} (hnd : (l.map Prod.fst).Nodup)
    (hm : ((e, v), cs) ∈ l) :
    (l.map (fun p => Constr.singleSource p.1.1 p.1.2 p.2)).filter
      (Constr.isSingleFor e v) = [Constr.singleSource e v cs] := by
  induction l with
  | nil => simp at hm
  | cons p rest ih =>
      simp only [List.map_cons, List.nodup_cons] at hnd
      by_cases hkey : p.1 = (e, v)
      · have hpcs : p = ((e, v), cs) := by
          rcases List.mem_cons.mp hm with h1 | h1
          · exact h1.symm
          · exfalso
            apply hnd.1
            rw [hkey]
            exact List.mem_map.mpr ⟨((e, v), cs), h1, rfl⟩
        subst hpcs
        simp only [List.map_cons, List.filter_cons]
        rw [if_pos (isSingleFor_iff.mpr hkey)]
        rw [singles_filter_nil (fun q hq hqk => hnd.1
          (by rw [hkey, ← hqk]; exact List.mem_map.mpr ⟨q, hq, rfl⟩))]
      · have hm2 : ((e, v), cs) ∈ rest := by
          rcases List.mem_cons.mp hm with h1 | h1
          · exact absurd (congrArg Prod.fst h1.symm) hkey
          · exact h1
        simp only [List.map_cons, List.filter_cons]
        rw [if_neg (fun habs => hkey (isSingleFor_iff.mp habs))]
        exact ih hnd.2 hm2

theorem aggregate_split (pre post : List (Nat × Nat × Int)) (v e : Nat)
    (n n1 n2 : Int) (h : n1 + n2 = n) :
    aggregateRequests (pre ++ (v, e, n) :: post) =
      aggregateRequests (pre ++ (v, e, n1) :: (v, e, n2) :: post) := by
  unfold aggregateRequests
  rw [List.foldl_append, List.foldl_append]
  simp only [List.foldl_cons]
  rw [reqAdd_reqAdd, h]

theorem mem_write_solution {yVal : Nat → Nat → Rat} {V C c : Nat}
    {vids : List Nat} :
    (c, vids) ∈ write_solution yVal V C ↔
      c < C ∧ vids = (List.range V).filter (fun v => half < yVal v c) ∧
        vids ≠ [] := by
  simp only [write_solution, List.mem_filterMap, List.mem_range]
  constructor
  · rintro ⟨a, ha, hsome⟩
    by_cases hemp :
        ((List.range V).filter (fun v => half < yVal v a)).isEmpty
    · simp [hemp] at hsome
    · simp only [hemp] at hsome
      simp only [Bool.false_eq_true, if_false, Option.some.injEq] at hsome
      obtain ⟨h1, h2⟩ := Prod.mk.inj hsome
      subst h1
      subst h2
      refine ⟨ha, rfl, ?_⟩
      simpa [List.isEmpty_iff] using hemp
  · rintro ⟨hc, rfl, hne⟩
    refine ⟨c, hc, ?_⟩
    have hemp :
        ((List.range V).filter (fun v => half < yVal v c)).isEmpty = false := by
      simpa [List.isEmpty_iff] using hne
    simp [hemp]

/-! ### The claims -/

/-- C1: For every aggregated request pair `(e, v)` and every cache `c`
reachable from `e` (present in that endpoint's `cache_latencies`),
`build_model` creates `z[e,v,c]` iff `save = dc_latency(e) −
cache_latencies(e)[c]` is strictly positive; a created `z[e,v,c]` has
objective coefficient `n_req * save`; the submitted objective maximises the
sum of these coefficients over exactly the surviving triples; and a triple
with `save ≤ 0` gets no variable, no constraint, and no objective term. -/
theorem C1_pruning_and_objective (d : InstanceData) (m : GModel)
    (hwf : wfInstance d) (hm : build_model d = Except.ok m)
    (e v c : Nat) (n lat : Int)
    (hn : dictGet d.requests (e, v) = some n)
    (hc : dictGet (epAt d.endpoints e).cache_latencies c = some lat) :
    ((e, v, c) ∈ m.zKeys ↔ 0 < (epAt d.endpoints e).dc_latency - lat) ∧
    (∀ g : Int, (((e, v, c), g) ∈ m.objective ↔
      (0 < (epAt d.endpoints e).dc_latency - lat ∧
        g = n * ((epAt d.endpoints e).dc_latency - lat)))) ∧
    m.objective.map Prod.fst = m.zKeys ∧
    m.sense = ObjSense.maximize ∧
    ((epAt d.endpoints e).dc_latency - lat ≤ 0 →
      (e, v, c) ∉ m.zKeys ∧ Constr.link e v c ∉ m.constrs ∧
      (∀ g : Int, ((e, v, c), g) ∉ m.objective) ∧
      (∀ cs, Constr.singleSource e v cs ∈ m.constrs → c ∉ cs)) := by
  have hmv : m = theModel d := by
    rw [build_model_eq d hwf] at hm
    exact (Except.ok.inj hm).symm
  subst hmv
  refine ⟨triple_mem_iff hwf hn hc, gain_mem_iff hwf hn hc,
    allGains_map_fst _ _, rfl, ?_⟩
  intro hs
  refine ⟨?_, ?_, ?_, ?_⟩
  · intro hk
    have := (triple_mem_iff hwf hn hc).mp hk
    omega
  · intro hk
    have := (triple_mem_iff hwf hn hc).mp (link_mem_theModel.mp hk)
    omega
  · intro g hg
    have := ((gain_mem_iff hwf hn hc g).mp hg).1
    omega
  · intro cs hmem hcin
    have hev := singleSource_mem_theModel.mp hmem
    obtain ⟨p, _, h1, h2, _⟩ := mem_allEv.mp hev
    have hpe : p.1.1 = e := (congrArg Prod.fst h1).symm
    rw [hpe] at h2
    have h2b : cs = pairCaches (epAt d.endpoints e).dc_latency
        (epAt d.endpoints e).cache_latencies := h2
    rw [h2b] at hcin
    obtain ⟨q, hq, hqs, hqc⟩ := mem_pairCaches.mp hcin
    have hq2 : q = (c, lat) :=
      dict_mem_eq (epAt_cls_nodup (fun ep hep => (hwf.2.2.1 ep hep).1) e)
        hq hqc.symm hc
    rw [hq2] at hqs
    exact hqs hs

theorem C1_witness :
    (((0, 0, 0) : Nat × Nat × Nat) ∈ (theModel sampleInstance).zKeys ↔
      0 < (epAt sampleInstance.endpoints 0).dc_latency - 2) ∧
    ((((0, 0, 0) : Nat × Nat × Nat), (24 : Int)) ∈
        (theModel sampleInstance).objective ↔
      (0 < (epAt sampleInstance.endpoints 0).dc_latency - 2 ∧
        (24 : Int) = 3 * ((epAt sampleInstance.endpoints 0).dc_latency - 2))) ∧
    (theModel sampleInstance).objective.map Prod.fst =
      (theModel sampleInstance).zKeys ∧
    (theModel sampleInstance).sense = ObjSense.maximize :=
  have h := C1_pruning_and_objective sampleInstance (theModel sampleInstance)
    (by decide) (by decide) 0 0 0 3 2 (by decide) (by decide)
  ⟨h.1, h.2.1 24, h.2.2.1, h.2.2.2.1⟩

/-- C2: `build_model` creates `y[v,c]` for every pair `(v, c)` in
`[0,V) × [0,C)` — exactly `V·C` variables, unconditionally — and the
capacity rows are exactly one per cache, each summing `size(v) · y[v,c]`
over the full video range with bound `X`. -/
theorem C2_variables_and_capacity (d : InstanceData) (m : GModel)
    (hwf : wfInstance d) (hm : build_model d = Except.ok m) :
    (∀ v c : Nat, ((v, c) ∈ m.yVars ↔ v < d.V ∧ c < d.C)) ∧
    m.yVars.length = d.V * d.C ∧
    m.constrs.filter Constr.isCapacity =
      (List.range d.C).map (capRow d.video_sizes d.V d.X) := by
  have hmv : m = theModel d := by
    rw [build_model_eq d hwf] at hm
    exact (Except.ok.inj hm).symm
  subst hmv
  refine ⟨fun v c => mem_yVarList, yVarList_length d.V d.C, ?_⟩
  show ((List.range d.C).map (capRow d.video_sizes d.V d.X)
      ++ (allTriples d.endpoints d.requests).map
          (fun k => Constr.link k.1 k.2.1 k.2.2)
      ++ (allEv d.endpoints d.requests).map
          (fun p => Constr.singleSource p.1.1 p.1.2 p.2)).filter
        Constr.isCapacity = _
  rw [List.filter_append, List.filter_append]
  rw [List.filter_eq_self.mpr (fun a ha => by
    obtain ⟨c', _, rfl⟩ := List.mem_map.mp ha
    rfl)]
  rw [List.filter_eq_nil_iff.mpr (fun a ha => by
    obtain ⟨k, _, rfl⟩ := List.mem_map.mp ha
    simp [Constr.isCapacity])]
  rw [List.filter_eq_nil_iff.mpr (fun a ha => by
    obtain ⟨p, _, rfl⟩ := List.mem_map.mp ha
    simp [Constr.isCapacity])]
  simp

theorem C2_witness :
    (((0, 0) : Nat × Nat) ∈ (theModel sampleInstance).yVars ↔
      0 < sampleInstance.V ∧ 0 < sampleInstance.C) ∧
    (theModel sampleInstance).yVars.length =
      sampleInstance.V * sampleInstance.C ∧
    (theModel sampleInstance).constrs.filter Constr.isCapacity =
      (List.range sampleInstance.C).map
        (capRow sampleInstance.video_sizes sampleInstance.V
          sampleInstance.X) :=
  have h := C2_variables_and_capacity sampleInstance
    (theModel sampleInstance) (by decide) (by decide)
  ⟨h.1 0 0, h.2.1, h.2.2⟩

/-- C10: pruning depends only on the sign of `save`, never on the sign of
the aggregated request count: a pair with a zero or negative count still
gets its `z` variables for every positive-`save` cache, with (zero or
negative) objective coefficient `n_req * save`. -/
theorem C10_nonpositive_count_not_pruned (d : InstanceData) (m : GModel)
    (hwf : wfInstance d) (hm : build_model d = Except.ok m)
    (e v c : Nat) (n lat : Int)
    (hn : dictGet d.requests (e, v) = some n) (hneg : n ≤ 0)
    (hc : dictGet (epAt d.endpoints e).cache_latencies c = some lat)
    (hs : 0 < (epAt d.endpoints e).dc_latency - lat) :
    (e, v, c) ∈ m.zKeys ∧
    (((e, v, c), n * ((epAt d.endpoints e).dc_latency - lat)) ∈
      m.objective) ∧
    n * ((epAt d.endpoints e).dc_latency - lat) ≤ 0 := by
  have hmv : m = theModel d := by
    rw [build_model_eq d hwf] at hm
    exact (Except.ok.inj hm).symm
  subst hmv
  refine ⟨(triple_mem_iff hwf hn hc).mpr hs,
    (gain_mem_iff hwf hn hc _).mpr ⟨hs, rfl⟩, ?_⟩
  exact mul_nonpos_iff.mpr (Or.inr ⟨hneg, le_of_lt hs⟩)

theorem C10_witness :
    ((0, 0, 0) : Nat × Nat × Nat) ∈ (theModel negInstance).zKeys ∧
    ((((0, 0, 0) : Nat × Nat × Nat),
        (-2 : Int) * ((epAt negInstance.endpoints 0).dc_latency - 2)) ∈
      (theModel negInstance).objective) ∧
    (-2 : Int) * ((epAt negInstance.endpoints 0).dc_latency - 2) ≤ 0 :=
  C10_nonpositive_count_not_pruned negInstance (theModel negInstance)
    (by decide) (by decide) 0 0 0 (-2) 2 (by decide) (by decide)
    (by decide) (by decide)

theorem allEv_keys_sublist (eps : List EndpointData)
    (reqs : List ((Nat × Nat) × Int)) :
    ((allEv eps reqs).map Prod.fst).Sublist (reqs.map Prod.fst) := by
  induction reqs with
  | nil => simp [allEv]
  | cons p rest ih =>
      simp only [allEv, List.filterMap_cons, List.map_cons] at ih ⊢
      by_cases hcs : (pairCaches (epAt eps p.1.1).dc_latency
          (epAt eps p.1.1).cache_latencies).isEmpty
      · simp only [hcs]
        exact ih.cons p.1
      · simp only [hcs]
        simp only [Bool.false_eq_true, if_false, List.map_cons]
        exact ih.cons₂ p.1

theorem allEv_keys_nodup {eps : List EndpointData}
    {reqs : List ((Nat × Nat) × Int)} (hnd : (reqs.map Prod.fst).Nodup) :
    ((allEv eps reqs).map Prod.fst).Nodup :=
  (allEv_keys_sublist eps reqs).nodup hnd

/-- A cache is in the surviving list of endpoint `e` iff the corresponding
triple was created, for any pair `(e, v)` present in the request dict. -/
theorem surv_iff_triple {d : InstanceData} (_hwf : wfInstance d)
    {e v : Nat} {n : Int} (hn : dictGet d.requests (e, v) = some n)
    (c : Nat) :
    c ∈ survCaches d e ↔ (e, v, c) ∈ allTriples d.endpoints d.requests := by
  constructor
  · intro hcm
    obtain ⟨q, hq, hqs, hqc⟩ := mem_pairCaches.mp hcm
    apply mem_allTriples.mpr
    refine ⟨((e, v), n), dictGet_mem hn, mem_pairTriples.mpr ⟨q, hq, hqs, ?_⟩⟩
    rw [hqc]
  · intro ht
    obtain ⟨p, _, hkp⟩ := mem_allTriples.mp ht
    obtain ⟨q, hq, hqs, hke⟩ := mem_pairTriples.mp hkp
    have hpe : p.1.1 = e := (congrArg Prod.fst hke).symm
    have hqc : q.1 = c := (congrArg (fun x => x.2.2) hke).symm
    rw [hpe] at hq hqs
    exact mem_pairCaches.mpr ⟨q, hq, hqs, hqc.symm⟩

/-- C3: for every created `z[e,v,c]` the model contains the linking row
`z[e,v,c] ≤ y[v,c]`, exactly one per surviving triple, and any assignment
with `z[e,v,c] = 1` and `y[v,c] = 0` is infeasible for the built
constraints. -/
theorem C3_linking (d : InstanceData) (m : GModel) (hwf : wfInstance d)
    (hm : build_model d = Except.ok m) (e v c : Nat)
    (hz : (e, v, c) ∈ m.zKeys) :
    m.constrs.count (Constr.link e v c) = 1 ∧
    ∀ yA zA, zA e v c = 1 → yA v c = 0 → ¬ feasible yA zA m := by
  have hmv : m = theModel d := by
    rw [build_model_eq d hwf] at hm
    exact (Except.ok.inj hm).symm
  subst hmv
  constructor
  · show ((List.range d.C).map (capRow d.video_sizes d.V d.X)
        ++ (allTriples d.endpoints d.requests).map
            (fun k => Constr.link k.1 k.2.1 k.2.2)
        ++ (allEv d.endpoints d.requests).map
            (fun p => Constr.singleSource p.1.1 p.1.2 p.2)).count
          (Constr.link e v c) = 1
    rw [List.count_append, List.count_append]
    have h1 : ((List.range d.C).map
        (capRow d.video_sizes d.V d.X)).count (Constr.link e v c) = 0 := by
      rw [List.count_eq_zero]
      intro habs
      obtain ⟨c', _, habs2⟩ := List.mem_map.mp habs
      simp [capRow] at habs2
    have h3 : ((allEv d.endpoints d.requests).map
        (fun p => Constr.singleSource p.1.1 p.1.2 p.2)).count
          (Constr.link e v c) = 0 := by
      rw [List.count_eq_zero]
      intro habs
      obtain ⟨p, _, habs2⟩ := List.mem_map.mp habs
      simp at habs2
    have h2 := (List.count_map_of_injective
        (allTriples d.endpoints d.requests) _ linkOf_injective
          (e, v, c)).trans
      (List.count_eq_one_of_mem
        (allTriples_nodup hwf.1 (fun ep hep => (hwf.2.2.1 ep hep).1)) hz)
    rw [h1, h3]
    simpa using h2
  · intro yA zA hz1 hy0 hf
    have hlink : Constr.link e v c ∈ (theModel d).constrs :=
      link_mem_theModel.mpr hz
    have hh := hf _ hlink
    simp only [constrHolds] at hh
    rw [hz1, hy0] at hh
    omega

theorem C3_witness :
    (theModel sampleInstance).constrs.count (Constr.link 0 0 0) = 1 ∧
    ¬ feasible (fun _ _ => 0) (fun _ _ _ => 1) (theModel sampleInstance) :=
  have h := C3_linking sampleInstance (theModel sampleInstance)
    (by decide) (by decide) 0 0 0 (by decide)
  ⟨h.1, h.2 (fun _ _ => 0) (fun _ _ _ => 1) rfl rfl⟩

/-- C4: every pair `(e, v)` with at least one surviving `z` variable gets
exactly one single-source row, summing over exactly the caches that
survived pruning for that pair; a pair with no surviving variable gets no
single-source row. -/
theorem C4_single_source (d : InstanceData) (m : GModel)
    (hwf : wfInstance d) (hm : build_model d = Except.ok m) (e v : Nat) :
    ((∃ c, (e, v, c) ∈ m.zKeys) →
      m.constrs.filter (Constr.isSingleFor e v) =
        [Constr.singleSource e v (survCaches d e)] ∧
      ∀ c, (c ∈ survCaches d e ↔ (e, v, c) ∈ m.zKeys)) ∧
    ((∀ c, (e, v, c) ∉ m.zKeys) →
      m.constrs.filter (Constr.isSingleFor e v) = []) := by
  have hmv : m = theModel d := by
    rw [build_model_eq d hwf] at hm
    exact (Except.ok.inj hm).symm
  subst hmv
  have hcaps : ((List.range d.C).map
      (capRow d.video_sizes d.V d.X)).filter (Constr.isSingleFor e v)
        = [] := by
    rw [List.filter_eq_nil_iff]
    intro a ha
    obtain ⟨c', _, rfl⟩ := List.mem_map.mp ha
    simp [capRow, Constr.isSingleFor]
  have hlinks : ((allTriples d.endpoints d.requests).map
      (fun k => Constr.link k.1 k.2.1 k.2.2)).filter
        (Constr.isSingleFor e v) = [] := by
    rw [List.filter_eq_nil_iff]
    intro a ha
    obtain ⟨k, _, rfl⟩ := List.mem_map.mp ha
    simp [Constr.isSingleFor]
  have hshape : (theModel d).constrs.filter (Constr.isSingleFor e v) =
      ((allEv d.endpoints d.requests).map
        (fun p => Constr.singleSource p.1.1 p.1.2 p.2)).filter
          (Constr.isSingleFor e v) := by
    show ((List.range d.C).map (capRow d.video_sizes d.V d.X)
        ++ (allTriples d.endpoints d.requests).map
            (fun k => Constr.link k.1 k.2.1 k.2.2)
        ++ (allEv d.endpoints d.requests).map
            (fun p => Constr.singleSource p.1.1 p.1.2 p.2)).filter
          (Constr.isSingleFor e v) = _
    rw [List.filter_append, List.filter_append, hcaps, hlinks]
    simp
  constructor
  · rintro ⟨c0, hc0⟩
    obtain ⟨p, hp, hkp⟩ := mem_allTriples.mp hc0
    obtain ⟨q, _, _, hke⟩ := mem_pairTriples.mp hkp
    have hpe : p.1.1 = e := (congrArg Prod.fst hke).symm
    have hpv : p.1.2 = v := (congrArg (fun x => x.2.1) hke).symm
    have hkey : p.1 = (e, v) := by
      rw [Prod.ext_iff]
      exact ⟨hpe, hpv⟩
    have hn : dictGet d.requests (e, v) = some p.2 := by
      rw [← hkey]
      exact mem_dictGet hwf.1 hp
    have hiff := fun c => surv_iff_triple hwf hn c
    have hne : survCaches d e ≠ [] :=
      List.ne_nil_of_mem ((hiff c0).mpr hc0)
    have hent : ((e, v), survCaches d e) ∈ allEv d.endpoints d.requests := by
      apply mem_allEv.mpr
      refine ⟨p, hp, hkey.symm, ?_, hne⟩
      show survCaches d e = pairCaches (epAt d.endpoints p.1.1).dc_latency
        (epAt d.endpoints p.1.1).cache_latencies
      rw [hpe]
      rfl
    refine ⟨?_, hiff⟩
    rw [hshape]
    exact singles_filter_single (allEv_keys_nodup hwf.1) hent
  · intro hno
    rw [hshape]
    apply singles_filter_nil
    intro entry hent habs
    obtain ⟨p, hp, h1, h2, h3⟩ := mem_allEv.mp hent
    have hkey : p.1 = (e, v) := by
      rw [← habs]
      exact h1.symm
    have hn : dictGet d.requests (e, v) = some p.2 := by
      rw [← hkey]
      exact mem_dictGet hwf.1 hp
    obtain ⟨c, hcm⟩ := List.exists_mem_of_ne_nil _ h3
    have hpe : p.1.1 = e := congrArg Prod.fst hkey
    rw [hpe] at h2
    have hcm2 : c ∈ survCaches d e := by
      rw [show survCaches d e = pairCaches (epAt d.endpoints e).dc_latency
        (epAt d.endpoints e).cache_latencies from rfl, ← h2]
      exact hcm
    exact hno c ((surv_iff_triple hwf hn c).mp hcm2)

theorem C4_witness :
    (theModel sampleInstance).constrs.filter (Constr.isSingleFor 0 0) =
      [Constr.singleSource 0 0 (survCaches sampleInstance 0)] ∧
    (0 ∈ survCaches sampleInstance 0 ↔
      ((0, 0, 0) : Nat × Nat × Nat) ∈ (theModel sampleInstance).zKeys) :=
  have h := C4_single_source sampleInstance (theModel sampleInstance)
    (by decide) (by decide) 0 0
  have h1 := h.1 ⟨0, by decide⟩
  ⟨h1.1, h1.2 0⟩

theorem build_model_ignores_R (V0 E0 R1 R2 C0 : Nat) (X0 : Int)
    (sizes : List Int) (eps : List EndpointData)
    (reqs : List ((Nat × Nat) × Int)) :
    build_model ⟨V0, E0, R1, C0, X0, sizes, eps, reqs⟩ =
      build_model ⟨V0, E0, R2, C0, X0, sizes, eps, reqs⟩ := rfl

/-- C5: request aggregation is additive over duplicate keys: splitting one
raw record `(v, e, n)` into `(v, e, n1)` and `(v, e, n2)` with
`n1 + n2 = n` yields an identical aggregated request map, and hence an
identical built model (whatever request-count header the two files carry). -/
theorem C5_aggregation_additive (V E C : Nat) (X : Int)
    (sizes : List Int) (eps : List EndpointData)
    (pre post : List (Nat × Nat × Int)) (v e : Nat) (n n1 n2 : Int)
    (h : n1 + n2 = n) :
    aggregateRequests (pre ++ (v, e, n) :: post) =
      aggregateRequests (pre ++ (v, e, n1) :: (v, e, n2) :: post) ∧
    ∀ R1 R2 : Nat,
      (read_instance V E R1 C X sizes eps
        (pre ++ (v, e, n) :: post)).bind build_model =
      (read_instance V E R2 C X sizes eps
        (pre ++ (v, e, n1) :: (v, e, n2) :: post)).bind build_model := by
  have hagg := aggregate_split pre post v e n n1 n2 h
  refine ⟨hagg, ?_⟩
  intro R1 R2
  unfold read_instance
  by_cases hl : sizes.length = V
  · rw [if_pos hl, if_pos hl, hagg]
    exact build_model_ignores_R V E R1 R2 C X sizes eps _
  · rw [if_neg hl, if_neg hl]

theorem C5_witness :
    aggregateRequests ([] ++ (0, 0, (3 : Int)) :: []) =
      aggregateRequests ([] ++ (0, 0, (1 : Int)) :: (0, 0, (2 : Int)) :: []) ∧
    (read_instance 1 1 1 1 10 [5] [⟨10, [(0, 2)]⟩]
        ([] ++ (0, 0, (3 : Int)) :: [])).bind build_model =
      (read_instance 1 1 2 1 10 [5] [⟨10, [(0, 2)]⟩]
        ([] ++ (0, 0, (1 : Int)) :: (0, 0, (2 : Int)) :: [])).bind
          build_model :=
  have h := C5_aggregation_additive 1 1 1 10 [5] [⟨10, [(0, 2)]⟩]
    [] [] 0 0 3 1 2 (by decide)
  ⟨h.1, h.2 1 2⟩

/-- C6: the Solution Extractor assigns video `v` to cache `c` exactly when
the solver value for `y[v,c]` exceeds the fixed threshold `0.5`; each
cache's video list is in ascending index order; caches with an empty list
are omitted; and the output's first line is the count of non-empty caches. -/
theorem C6_solution_extractor (yVal : Nat → Nat → Rat) (V C : Nat) :
    (∀ c vids, (c, vids) ∈ write_solution yVal V C →
      c < C ∧ vids ≠ [] ∧ List.Sorted (fun a b => a < b) vids ∧
      vids = (List.range V).filter (fun v => half < yVal v c) ∧
      (∀ v, (v ∈ vids ↔ v < V ∧ half < yVal v c))) ∧
    (∀ c, c < C → (List.range V).filter (fun v => half < yVal v c) ≠ [] →
      (c, (List.range V).filter (fun v => half < yVal v c)) ∈
        write_solution yVal V C) ∧
    (solutionFile yVal V C).1 = (write_solution yVal V C).length ∧
    (solutionFile yVal V C).2 = write_solution yVal V C := by
  refine ⟨?_, ?_, rfl, rfl⟩
  · intro c vids hm
    obtain ⟨hc, hveq, hne⟩ := mem_write_solution.mp hm
    subst hveq
    refine ⟨hc, hne, ?_, rfl, ?_⟩
    · exact List.Sorted.filter _ (List.pairwise_lt_range V)
    · intro v
      simp [List.mem_filter, List.mem_range]
  · intro c hc hne
    exact mem_write_solution.mpr ⟨hc, rfl, hne⟩

theorem C6_witness :
    ((0, (List.range 2).filter (fun v => half < sampleY v 0)) ∈
      write_solution sampleY 2 2) ∧
    (solutionFile sampleY 2 2).1 = (write_solution sampleY 2 2).length :=
  have h := C6_solution_extractor sampleY 2 2
  ⟨h.2.1 0 (by decide) (by decide), h.2.2.1⟩

/-- C7 (counterexample): on the degenerate instance with `V = 0`,
`build_model` succeeds — there is no `EmptyModelError` in the code, so the
claimed failure does not happen. -/
theorem C7_counterexample :
    degenerateInstance.V = 0 ∧
      (build_model degenerateInstance).isOk = true := by
  decide

/-- C7 amended: on a degenerate instance with `V = 0` or `C = 0`,
`build_model` does not fail: it builds and returns a model (the code has no
`EmptyModelError` and performs no degeneracy check), the model is submitted
to the solver as usual, and an output file is still produced whenever the
solver reports at least one solution. -/
theorem C7_amended (d : InstanceData) (hwf : wfInstance d)
    (_hdeg : d.V = 0 ∨ d.C = 0) :
    (build_model d).isOk = true ∧
    ∀ yVal, main_after_solve 1 yVal d =
      Except.ok (some (solutionFile yVal d.V d.C)) := by
  refine ⟨?_, fun yVal => rfl⟩
  rw [build_model_eq d hwf]
  rfl

theorem C7_witness :
    (build_model degenerateInstance).isOk = true ∧
    main_after_solve 1 sampleY degenerateInstance =
      Except.ok (some (solutionFile sampleY degenerateInstance.V
        degenerateInstance.C)) :=
  have h := C7_amended degenerateInstance (by decide) (Or.inl rfl)
  ⟨h.1, h.2 sampleY⟩

/-- C8 (counterexample): a request record referencing endpoint index 5 in
an instance with `E = 1` is accepted by `read_instance` — reading performs
no range validation and raises no `MalformedInstanceError`. -/
theorem C8_counterexample :
    (read_instance 1 1 1 1 10 [5] [⟨10, [(0, 2)]⟩] [(0, 5, 1)]).isOk
      = true := by
  decide

/-- C8 amended: instance reading performs no index-range validation — it
succeeds whenever the size line has `V` entries, whatever indices the
records reference; an out-of-range endpoint index instead surfaces later,
during model construction, as an `IndexError` from `endpoints[e]`. -/
theorem C8_amended :
    (∀ (V E R C : Nat) (X : Int) (sizes : List Int)
        (eps : List EndpointData) (records : List (Nat × Nat × Int)),
      sizes.length = V →
        (read_instance V E R C X sizes eps records).isOk = true) ∧
    (read_instance 1 1 1 1 10 [5] [⟨10, [(0, 2)]⟩] [(0, 5, 1)]).bind
      build_model = Except.error PyError.indexError := by
  constructor
  · intro V E R C X sizes eps records hl
    unfold read_instance
    rw [if_pos hl]
    rfl
  · decide

theorem C8_witness :
    (read_instance 2 1 1 1 10 [5, 4] [⟨10, [(0, 2)]⟩] [(0, 5, 1)]).isOk
      = true :=
  C8_amended.1 2 1 1 1 10 [5, 4] [⟨10, [(0, 2)]⟩] [(0, 5, 1)] (by decide)

/-- C9 (counterexample): when the solver reports zero feasible solutions,
the post-solve code returns normally (`Except.ok`) with no output file — it
does not fail with a `NoSolutionError` (no such error exists in the code). -/
theorem C9_counterexample :
    main_after_solve 0 sampleY sampleInstance = Except.ok none := rfl

/-- C9 amended: if the solver reports zero feasible solutions, `main`
writes no output file and terminates normally after printing a message —
no exception is raised, and no partial or fallback placement is produced. -/
theorem C9_amended (solCount : Nat) (yVal : Nat → Nat → Rat)
    (d : InstanceData) (h : solCount = 0) :
    main_after_solve solCount yVal d = Except.ok none := by
  subst h
  rfl

theorem C9_witness :
    main_after_solve 0 (fun _ _ => (0 : Rat)) degenerateInstance =
      Except.ok none :=
  C9_amended 0 (fun _ _ => (0 : Rat)) degenerateInstance rfl

end Videos
